import Mathlib

/-!
Shallow embedding of the ASCII guitar-tab parser (`lib/tabParser.ts`) and the
grid encoder (`generateTab` in `app/layout.tsx`) of royberris/GuitarTabToPiano.
Strings are modelled as `List Char`; JavaScript's `\s` and `\d` character
classes are modelled by `Char.isWhitespace` and `Char.isDigit`.
-/

abbrev Str := List Char

deriving instance DecidableEq for Except

/-- `NOTE_NAMES` table from `tabParser.ts`: the twelve pitch classes in
sharp spelling, from C upward. -/
def NOTE_NAMES : List String :=
  ["C", "C#", "D", "D#", "E", "F"] ++ ["F#", "G", "G#", "A", "A#", "B"]

/-- `A0_MIDI` from `tabParser.ts`: lowest piano key MIDI. -/
def A0_MIDI : Nat := 21

/-- `C8_MIDI` from `tabParser.ts`: highest piano key MIDI. -/
def C8_MIDI : Nat := 108

/-- The `STRING_OPEN_MIDI` record from `tabParser.ts`, as an association list. -/
def STRING_OPEN_MIDI : List (String × Nat) :=
  [("e", 64), ("B", 59), ("G", 55), ("D", 50), ("A", 45), ("E", 40)]

/-- Access `STRING_OPEN_MIDI[s]`: a JS record access returns `undefined`
(here `none`) for a key that is absent. -/
def openMidi (s : String) : Option Nat := STRING_OPEN_MIDI.lookup s

structure ParsedNote where
  string : String
  fret : Nat
  midi : Nat
  key : Int
  name : String
deriving DecidableEq, Repr

structure TabEvent where
  step : Nat
  notes : List ParsedNote
deriving DecidableEq, Repr

structure ParseResult where
  events : List TabEvent
  steps : Nat
deriving DecidableEq, Repr

inductive ParseError where
  | insufficientLines
deriving DecidableEq, Repr

/-- `midiToKeyNumber` from `tabParser.ts`: `midi - 20`. -/
def midiToKeyNumber (midi : Int) : Int := midi - 20

/-- `midiToName` from `tabParser.ts`: pitch class from `midi % 12`,
octave `floor(midi/12) - 1`. -/
def midiToName (midi : Nat) : String :=
  NOTE_NAMES.getD (midi % 12) "" ++ toString ((midi / 12 : Nat) - 1 : Int)

/-- `isBlackKey` from `tabParser.ts`. -/
def isBlackKey (midi : Nat) : Bool := [1, 3, 6, 8, 10].contains (midi % 12)

/-- Numeric value of a decimal digit character. -/
def digitVal (c : Char) : Nat := c.toNat - '0'.toNat

/-- Split a character list at every occurrence of `sep`
(the semantics of JS `String.split`). -/
def splitOnChar (sep : Char) : Str → List Str
  | [] => [[]]
  | c :: rest =>
    if c = sep then [] :: splitOnChar sep rest
    else
      match splitOnChar sep rest with
      | [] => [[c]]
      | h :: t => (c :: h) :: t

/-- Everything after the first `|` of a line, the whole line if it has no `|`
(the `line.slice(line.indexOf("|") + 1)` idiom: `indexOf` is `-1` when absent,
so the slice starts at 0). -/
def bodyAfterPipe (l : Str) : Str :=
  match l.dropWhile (fun c => !(c = '|')) with
  | [] => l
  | _ :: rest => rest

/-- The permitted tab-body character class
`[-0-9\s|hHpP/\\~()*xX<>]` from the candidate filter. -/
def tabBodyChar (c : Char) : Bool :=
  c == '-' || c.isDigit || c.isWhitespace || c == '|' || c == 'h' || c == 'H' ||
  c == 'p' || c == 'P' || c == '/' || c == '\\' || c == '~' || c == '(' ||
  c == ')' || c == '*' || c == 'x' || c == 'X' || c == '<' || c == '>'

/-- A line is a candidate iff the body after its first pipe is a nonempty
run of permitted characters. -/
def isCandidateLine (l : Str) : Bool :=
  !(bodyAfterPipe l).isEmpty && (bodyAfterPipe l).all tabBodyChar

/-- Non-blank lines of the input: split on newlines after removing `\r`,
keep lines whose `trim()` is nonempty. -/
def linesOf (t : Str) : List Str :=
  (splitOnChar '\n' (t.filter (fun c => !(c = '\r')))).filter
    (fun l => l.any (fun c => !c.isWhitespace))

def candidatesOf (lines : List Str) : List Str := lines.filter isCandidateLine

/-- `/^\s*[eE]/.test(line)`. -/
def startsWithE (l : Str) : Bool :=
  match l.dropWhile Char.isWhitespace with
  | [] => false
  | c :: _ => c == 'e' || c == 'E'

/-- `/^\s*[B]/.test(line)`. -/
def startsWithB (l : Str) : Bool :=
  match l.dropWhile Char.isWhitespace with
  | [] => false
  | c :: _ => c == 'B'

/-- The window scan: first run of six consecutive candidates whose first line
starts with `e`/`E` and whose second starts with `B`. -/
def findWindow : List Str → Option (List Str)
  | [] => none
  | a :: rest =>
    if 6 ≤ (a :: rest).length then
      if startsWithE a && (match rest with | b :: _ => startsWithB b | [] => false) then
        some ((a :: rest).take 6)
      else findWindow rest
    else none

/-- Window selection of `parseAsciiTab`: with at least six candidates use the
scan (falling back to the first six candidates); otherwise the first six raw
non-blank lines. -/
def selectTabLines (lines candidates : List Str) : List Str :=
  if 6 ≤ candidates.length then (findWindow candidates).getD (candidates.take 6)
  else lines.take 6

/-- `parts[parts.length-1].trim() === ''` popping loop. -/
def dropTrailingBlanks (parts : List Str) : List Str :=
  (parts.reverse.dropWhile (fun l => l.all Char.isWhitespace)).reverse

/-- Sectioned-format normalization of one line: split on `|`, drop the part
before the first pipe, pop trailing blank segments, concatenate. -/
def sectionedBody (l : Str) : Str :=
  (dropTrailingBlanks ((splitOnChar '|' l).drop 1)).flatten

/-- Flat-format normalization of one line: body after the first pipe with all
whitespace removed and trailing pipes stripped. -/
def flatBody (l : Str) : Str :=
  ((bodyAfterPipe l).filter (fun c => !c.isWhitespace)).reverse.dropWhile
    (fun c => c == '|') |>.reverse

/-- Sectioned-format test: the first selected line's content after its first
pipe contains a further pipe. -/
def isSectioned (tabLines : List Str) : Bool :=
  (bodyAfterPipe (tabLines.headD [])).contains '|'

def flattenedOf (tabLines : List Str) : List Str :=
  if isSectioned tabLines then tabLines.map sectionedBody
  else tabLines.map flatBody

/-- `Math.max(...lengths)` over the (nonempty) list of line lengths. -/
def maxLenOf (flattened : List Str) : Nat :=
  (flattened.map List.length).foldl max 0

/-- `padEnd(maxLen, "-")`. -/
def padDash (n : Nat) (l : Str) : Str := l ++ List.replicate (n - l.length) '-'

def paddedOf (tabLines : List Str) : List Str :=
  (flattenedOf tabLines).map (padDash (maxLenOf (flattenedOf tabLines)))

/-- Row-to-string-identifier order of the parser. -/
def order : List String := ["e", "B", "G", "D", "A", "E"]

/-- The per-pair test of the fixed-width check: on a two-character pair the
regex `^--|\d-|\d\d$` accepts exactly `--`, digit-dash, or digit-digit. -/
def pairOk (a b : Char) : Bool :=
  (a == '-' && b == '-') || (a.isDigit && b == '-') || (a.isDigit && b.isDigit)

def pairsOk : Str → Bool
  | [] => true
  | [_] => false
  | a :: b :: rest => pairOk a b && pairsOk rest

/-- The `isFixedWidth` check of `parseAsciiTab`. -/
def isFixedWidthLines (padded : List Str) : Bool :=
  padded.all (fun l => l.length % 2 == 0 && pairsOk l)

/-- Decode one two-character cell: `^\d-$` gives the single-digit fret,
`^\d\d$` the two-digit fret, anything else no fret. -/
def decodePairStr : Str → Option Nat
  | [a, b] =>
    if a.isDigit && b == '-' then some (digitVal a)
    else if a.isDigit && b.isDigit then some (10 * digitVal a + digitVal b)
    else none
  | _ => none

/-- Note construction shared verbatim by both decode paths: look up the open
midi, add the fret, keep the note only when the midi is on the piano.
A missing record entry (JS `undefined`, yielding `NaN` comparisons that are
all false) produces no note. -/
def mkNote (s : String) (fret : Nat) : Option ParsedNote :=
  match openMidi s with
  | none => none
  | some om =>
    if A0_MIDI ≤ om + fret ∧ om + fret ≤ C8_MIDI then
      some ⟨s, fret, om + fret, midiToKeyNumber ((om + fret : Nat) : Int),
        midiToName (om + fret)⟩
    else none

/-- Fixed-width decode of one step: the pair at offset `2*step` of each of the
six rows, frets above 24 excluded. -/
def fixedNotesAt (padded : List Str) (step : Nat) : List ParsedNote :=
  (List.range 6).filterMap (fun r =>
    match decodePairStr (((padded.getD r []).drop (2 * step)).take 2) with
    | some fret => if fret ≤ 24 then mkNote (order.getD r "") fret else none
    | none => none)

/-- `grid[r][c] = ch` on a list-of-rows grid. -/
def setGrid (grid : List Str) (r c : Nat) (ch : Char) : List Str :=
  grid.set r ((grid.getD r []).set c ch)

/-- `for (let k = 1; k <= advance; k++) grid[r][col + k] = '-'`. -/
def markSpent (grid : List Str) (r col advance : Nat) : List Str :=
  (List.range advance).foldl (fun g k => setGrid g r (col + k + 1) '-') grid

/-- Legacy variable-width handling of one row at one column: at a digit,
append the digits at `col+1` and `col+2` when each is in range and a digit,
clamp the resulting fret to 24, and blank the `advance` following cells. -/
def legacyProcessRow (maxLen col r : Nat) (grid : List Str) :
    List Str × Option ParsedNote :=
  let row := grid.getD r []
  let ch := row.getD col ' '
  if ch.isDigit then
    let take1 := decide (col + 1 < maxLen) && (row.getD (col + 1) ' ').isDigit
    let take2 := decide (col + 2 < maxLen) && (row.getD (col + 2) ' ').isDigit
    let ds := [ch] ++ (if take1 then [row.getD (col + 1) ' '] else []) ++
      (if take2 then [row.getD (col + 2) ' '] else [])
    let fretRaw := ds.foldl (fun a c => 10 * a + digitVal c) 0
    let fret := if 24 < fretRaw then 24 else fretRaw
    let advance := (if take1 then 1 else 0) + (if take2 then 1 else 0)
    (markSpent grid r col advance, mkNote (order.getD r "") fret)
  else (grid, none)

/-- Legacy decode of one column: rows processed top to bottom, threading the
mutated grid. -/
def legacyRows (maxLen col : Nat) : List Nat → List Str → List Str × List ParsedNote
  | [], grid => (grid, [])
  | r :: rs, grid =>
    let res := legacyProcessRow maxLen col r grid
    let rest := legacyRows maxLen col rs res.1
    (rest.1, res.2.toList ++ rest.2)

/-- Legacy decode over the column list, one event per column. -/
def legacyCols (maxLen : Nat) : List Nat → List Str → List TabEvent
  | [], _ => []
  | c :: cs, grid =>
    let res := legacyRows maxLen c (List.range 6) grid
    ⟨c, res.2⟩ :: legacyCols maxLen cs res.1

/-- `parseAsciiTab` from `tabParser.ts`. -/
def parseAsciiTab (t : Str) : Except ParseError ParseResult :=
  let lines := linesOf t
  let tabLines := selectTabLines lines (candidatesOf lines)
  if tabLines.length < 6 then .error .insufficientLines
  else
    let padded := paddedOf tabLines
    let maxLen := maxLenOf (flattenedOf tabLines)
    if isFixedWidthLines padded then
      let logicalSteps := maxLen / 2
      .ok ⟨(List.range logicalSteps).map (fun s => ⟨s, fixedNotesAt padded s⟩),
        logicalSteps⟩
    else
      .ok ⟨legacyCols maxLen (List.range maxLen) padded, maxLen⟩

/-- `STRING_NAMES` from `app/layout.tsx`. -/
def STRING_NAMES : List String := ["e", "B", "G", "D", "A", "E"]

/-- An editor placement `{string, fret, step}` from `app/layout.tsx`. -/
structure Placement where
  string : Nat
  fret : Nat
  step : Nat
deriving DecidableEq, Repr

/-- The two-character cell emitted by `generateTab` for a fret:
`fret.toString()` plus a dash when it is a single digit. -/
def encPair (f : Nat) : Str :=
  let s := Nat.toDigits 10 f
  if s.length = 1 then s ++ ['-'] else s

/-- One cell of a generated line: `--` when no placement is found at
`(stringIndex, step)`, the encoded fret otherwise. -/
def cellChars (notes : List Placement) (stringIndex step : Nat) : Str :=
  match notes.find? (fun n => n.string == stringIndex && n.step == step) with
  | none => ['-', '-']
  | some n => encPair n.fret

def bodyFor (notes : List Placement) (totalSteps i : Nat) : Str :=
  ((List.range totalSteps).map (cellChars notes i)).flatten

/-- One line of `generateTab`: string name, pipe, the step cells, closing pipe. -/
def lineFor (notes : List Placement) (totalSteps i : Nat) : Str :=
  (STRING_NAMES.getD i "").data ++ '|' :: bodyFor notes totalSteps i ++ ['|']

/-- `join('\n')`. -/
def joinNL : List Str → Str
  | [] => []
  | [l] => l
  | l :: ls => l ++ '\n' :: joinNL ls

/-- `generateTab` from `app/layout.tsx`. -/
def generateTab (notes : List Placement) (totalSteps : Nat) : Str :=
  joinNL ((List.range 6).map (lineFor notes totalSteps))

/-! ### Concrete inputs used by individual claims -/

/-- The end-to-end scenario input of the specification (§8). -/
def c2input : Str :=
  ("e|----------------|\nB|----------------|\nG|----------------|\nD|----------------|\nA|--0--2--3--5----|\nE|----------------|").data

/-- A three-line input. -/
def c3input : Str := ("e|----|\nB|----|\nG|----|").data

/-- Six lines whose first body is the digit pair `25` (a fret above 24). -/
def c4input : Str := ("e|25|\nB|--|\nG|--|\nD|--|\nA|--|\nE|--|").data

/-- Six lines whose `A` row is `3-5`: a digit, a dash, and a digit two
columns later. -/
def c8input : Str := ("e|---|\nB|---|\nG|---|\nD|---|\nA|3-5|\nE|---|").data

/-- Modelled from the spec: the fixed-width pair condition as the spec words
it, with a two-digit pair required to be a fret in 10–24 (the code accepts any
two digits). Used only to compare the spec's classification with the code's. -/
def specPairOk (a b : Char) : Bool :=
  (a == '-' && b == '-') || (a.isDigit && b == '-') ||
  (a.isDigit && b.isDigit && decide (10 ≤ 10 * digitVal a + digitVal b) &&
    decide (10 * digitVal a + digitVal b ≤ 24))

def specPairsOk : Str → Bool
  | [] => true
  | [_] => false
  | a :: b :: rest => specPairOk a b && specPairsOk rest

/-- Modelled from the spec: the spec's fixed-width classification predicate. -/
def specFixedWidthLines (padded : List Str) : Bool :=
  padded.all (fun l => l.length % 2 == 0 && specPairsOk l)

instance : DecidableEq (List (Nat × List (String × Nat × Nat × Int))) :=
  List.hasDecEq

/-- The shape of a parse outcome retaining step, string, fret, midi and key. -/
def resultShape (r : Except ParseError ParseResult) :
    Except ParseError (Nat × List (Nat × List (String × Nat × Nat × Int))) :=
  r.map (fun pr => (pr.steps, pr.events.map
    (fun e => (e.step, e.notes.map (fun n => (n.string, n.fret, n.midi, n.key))))))

/-- C2 counterexample: the spec's end-to-end input is NOT classified
fixed-width (the pair at characters 4–5 of the `A` row is `-2`), and the
parse yields 16 steps, not 8. -/
theorem c2_counterexample :
    isFixedWidthLines (paddedOf (selectTabLines (linesOf c2input)
      (candidatesOf (linesOf c2input)))) = false ∧
    (parseAsciiTab c2input).map ParseResult.steps = Except.ok 16 := by
  decide

/-- C2 (amended): the end-to-end input is decoded by the legacy
variable-width path with 16 steps; the notes land on string `A` at steps
2, 5, 8 and 11 with frets 0, 2, 3, 5, midis 45, 47, 48, 50 and piano keys
25, 27, 28, 30, and every other step has an empty note list. -/
theorem c2_end_to_end :
    resultShape (parseAsciiTab c2input) = Except.ok (16,
      [(0, []), (1, []), (2, [("A", 0, 45, 25)]), (3, []), (4, []),
       (5, [("A", 2, 47, 27)]), (6, []), (7, []), (8, [("A", 3, 48, 28)]),
       (9, []), (10, []), (11, [("A", 5, 50, 30)]), (12, []), (13, []),
       (14, []), (15, [])]) := by
  decide

/-- C8: on the `A` row `3-5` the legacy decode reads the digit at `col+2`
even though `col+1` is not a digit, forms the fret 35 and clamps it to 24,
and then re-reads the `5` at step 2 as a fresh note, because only `col+1`
was marked as spent. -/
theorem c8_legacy_lookahead :
    resultShape (parseAsciiTab c8input) = Except.ok (3,
      [(0, [("A", 24, 69, 49)]), (1, []), (2, [("A", 5, 50, 30)])]) := by
  decide

/-- C4 counterexample: with a `25` pair the spec's classification predicate
rejects the padded lines, yet the code classifies them fixed-width and
decodes one (empty) step instead of taking the legacy path. -/
theorem c4_counterexample :
    specFixedWidthLines (paddedOf (selectTabLines (linesOf c4input)
      (candidatesOf (linesOf c4input)))) = false ∧
    isFixedWidthLines (paddedOf (selectTabLines (linesOf c4input)
      (candidatesOf (linesOf c4input)))) = true ∧
    resultShape (parseAsciiTab c4input) = Except.ok (1, [(0, [])]) := by
  decide
/-! ### Pitch table (C7) -/

/-- C7: `openMidi` returns the fixed table value for each of the six
canonical string identifiers and fails (returns nothing) on every other
identifier. -/
theorem c7_open_midi :
    openMidi "e" = some 64 ∧ openMidi "B" = some 59 ∧ openMidi "G" = some 55 ∧
    openMidi "D" = some 50 ∧ openMidi "A" = some 45 ∧ openMidi "E" = some 40 ∧
    ∀ s : String, s ∉ ["e", "B", "G", "D", "A", "E"] → openMidi s = none := by
  refine ⟨by decide, by decide, by decide, by decide, by decide, by decide, ?_⟩
  intro s hs
  simp only [List.mem_cons, List.not_mem_nil, or_false, not_or] at hs
  obtain ⟨h1, h2, h3, h4, h5, h6⟩ := hs
  have e1 : (s == "e") = false := beq_eq_false_iff_ne.mpr h1
  have e2 : (s == "B") = false := beq_eq_false_iff_ne.mpr h2
  have e3 : (s == "G") = false := beq_eq_false_iff_ne.mpr h3
  have e4 : (s == "D") = false := beq_eq_false_iff_ne.mpr h4
  have e5 : (s == "A") = false := beq_eq_false_iff_ne.mpr h5
  have e6 : (s == "E") = false := beq_eq_false_iff_ne.mpr h6
  simp only [openMidi, STRING_OPEN_MIDI, List.lookup, e1, e2, e3, e4, e5, e6]

theorem c7_open_midi_witness :
    ("Z" : String) ∉ ["e", "B", "G", "D", "A", "E"] ∧ openMidi "Z" = none :=
  ⟨by decide, c7_open_midi.2.2.2.2.2.2 "Z" (by decide)⟩

/-! ### Line selection and the insufficient-lines error (C3, C9) -/

theorem findWindow_length {l w : List Str} (h : findWindow l = some w) :
    w.length = 6 := by
  induction l with
  | nil => simp [findWindow] at h
  | cons a rest ih =>
    unfold findWindow at h
    split at h
    · split at h
      · rename_i h6 _
        cases h
        simp only [List.length_take]
        omega
      · exact ih h
    · cases h

theorem selectTabLines_len (lines : List Str) :
    (selectTabLines lines (candidatesOf lines)).length = min 6 lines.length := by
  have hle : (candidatesOf lines).length ≤ lines.length :=
    List.length_filter_le _ _
  unfold selectTabLines
  split
  · rename_i h6
    cases hw : findWindow (candidatesOf lines) with
    | none => simp only [hw, Option.getD_none, List.length_take]; omega
    | some w => simp only [hw, Option.getD_some, findWindow_length hw]; omega
  · rename_i h6
    simp only [List.length_take]

theorem parse_error_iff (t : Str) :
    parseAsciiTab t = .error .insufficientLines ↔
      (selectTabLines (linesOf t) (candidatesOf (linesOf t))).length < 6 := by
  simp only [parseAsciiTab]
  split
  · rename_i h
    exact iff_of_true rfl h
  · rename_i h
    refine iff_of_false ?_ h
    split <;> exact fun hc => Except.noConfusion hc

theorem parse_isOk_iff (t : Str) :
    (parseAsciiTab t).isOk = true ↔
      ¬(selectTabLines (linesOf t) (candidatesOf (linesOf t))).length < 6 := by
  simp only [parseAsciiTab]
  split
  · rename_i h
    refine iff_of_false ?_ (not_not_intro h)
    simp [Except.isOk, Except.toBool]
  · rename_i h
    refine iff_of_true ?_ h
    split <;> rfl

/-- C3: the parser fails with the insufficient-lines error exactly when the
selected tab-line window holds fewer than six lines, and in particular a
three-string-line input fails that way. -/
theorem c3_insufficient_lines :
    (∀ t : Str, parseAsciiTab t = .error .insufficientLines ↔
      (selectTabLines (linesOf t) (candidatesOf (linesOf t))).length < 6) ∧
    parseAsciiTab c3input = .error .insufficientLines :=
  ⟨parse_error_iff, by decide⟩

/-- C9: `parseAsciiTab` raises its insufficient-lines error exactly when the
input has fewer than six non-blank lines, and succeeds exactly when it has
at least six, whether or not any line matches the tab character class. -/
theorem c9_failure_iff : ∀ t : Str,
    (parseAsciiTab t = .error .insufficientLines ↔ (linesOf t).length < 6) ∧
    ((parseAsciiTab t).isOk = true ↔ 6 ≤ (linesOf t).length) := by
  intro t
  have hlen := selectTabLines_len (linesOf t)
  have h1 := parse_error_iff t
  have h2 := parse_isOk_iff t
  constructor
  · rw [h1]; omega
  · rw [h2]; omega

/-! ### Fixed-width classification (C4) -/

theorem pairOk_iff (a b : Char) : pairOk a b = true ↔
    (a = '-' ∧ b = '-') ∨ (a.isDigit = true ∧ b = '-') ∨
    (a.isDigit = true ∧ b.isDigit = true) := by
  simp [pairOk, Bool.or_eq_true, Bool.and_eq_true, beq_iff_eq, or_assoc]

theorem pairsOk_iff : ∀ l : Str, l.length % 2 = 0 →
    (pairsOk l = true ↔ ∀ i, 2 * i + 1 < l.length →
      pairOk (l.getD (2 * i) ' ') (l.getD (2 * i + 1) ' ') = true)
  | [] => by intro _; simp [pairsOk]
  | [a] => by intro h; simp at h
  | a :: b :: rest => by
    intro h
    have hr : rest.length % 2 = 0 := by
      have hl : (a :: b :: rest).length = rest.length + 2 := by simp
      omega
    have ih := pairsOk_iff rest hr
    rw [pairsOk, Bool.and_eq_true]
    constructor
    · intro hp i hi
      match i with
      | 0 => simpa using hp.1
      | Nat.succ j =>
        have h2 : 2 * (j + 1) = 2 * j + 1 + 1 := by ring
        rw [h2]
        simp only [List.getD_cons_succ]
        refine ih.mp hp.2 j ?_
        simp only [List.length_cons] at hi
        omega
    · intro hall
      refine ⟨?_, ?_⟩
      · have h0 := hall 0 (by simp only [List.length_cons]; omega)
        simpa using h0
      · refine ih.mpr ?_
        intro j hj
        have h2 : 2 * (j + 1) = 2 * j + 1 + 1 := by ring
        have hs := hall (j + 1) (by simp only [List.length_cons]; omega)
        rw [h2] at hs
        simp only [List.getD_cons_succ] at hs
        exact hs

/-- C4 (amended): the parser's fixed-width classification holds iff every
padded line has even length and every two-character pair is `--`, a digit
followed by `-`, or any two digits (pairs above 24 are excluded later, during
decoding, not here). -/
theorem c4_fixed_width_classification : ∀ padded : List Str,
    isFixedWidthLines padded = true ↔
      ∀ l ∈ padded, l.length % 2 = 0 ∧
        ∀ i, 2 * i + 1 < l.length →
          ((l.getD (2 * i) ' ' = '-' ∧ l.getD (2 * i + 1) ' ' = '-') ∨
           ((l.getD (2 * i) ' ').isDigit = true ∧ l.getD (2 * i + 1) ' ' = '-') ∨
           ((l.getD (2 * i) ' ').isDigit = true ∧
             (l.getD (2 * i + 1) ' ').isDigit = true)) := by
  intro padded
  rw [isFixedWidthLines, List.all_eq_true]
  refine forall_congr' (fun l => imp_congr_right (fun _ => ?_))
  simp only [Bool.and_eq_true, beq_iff_eq]
  refine and_congr_right (fun h => ?_)
  exact (pairsOk_iff l h).trans
    (forall_congr' (fun i => imp_congr_right (fun _ => pairOk_iff _ _)))

/-! ### Note-level facts shared by C5, C6 and C10 -/

theorem openMidi_bounds {s : String} {om : Nat} (h : openMidi s = some om) :
    40 ≤ om ∧ om ≤ 64 := by
  simp only [openMidi, STRING_OPEN_MIDI, List.lookup] at h
  repeat' split at h
  all_goals first
    | (cases h; omega)
    | exact Option.noConfusion h

theorem mkNote_eq_some {s : String} {f : Nat} {n : ParsedNote}
    (h : mkNote s f = some n) :
    ∃ om, openMidi s = some om ∧ n.string = s ∧ n.fret = f ∧ n.midi = om + f ∧
      n.key = (n.midi : Int) - 20 ∧ A0_MIDI ≤ n.midi ∧ n.midi ≤ C8_MIDI := by
  cases hom : openMidi s with
  | none =>
    simp only [mkNote, hom] at h
    exact Option.noConfusion h
  | some om =>
    simp only [mkNote, hom] at h
    split at h
    · rename_i hc
      cases h
      exact ⟨om, rfl, rfl, rfl, rfl, rfl, hc.1, hc.2⟩
    · exact Option.noConfusion h

theorem openMidi_order_facts : ∀ r, r < 6 →
    (openMidi (order.getD r "")).isSome = true ∧
    40 ≤ (openMidi (order.getD r "")).getD 0 ∧
    (openMidi (order.getD r "")).getD 0 ≤ 64 := by
  decide

theorem mem_fixedNotesAt {padded : List Str} {s : Nat} {n : ParsedNote}
    (hn : n ∈ fixedNotesAt padded s) :
    ∃ r, r < 6 ∧ ∃ f, f ≤ 24 ∧ mkNote (order.getD r "") f = some n := by
  rw [fixedNotesAt, List.mem_filterMap] at hn
  obtain ⟨r, hr, he⟩ := hn
  rw [List.mem_range] at hr
  refine ⟨r, hr, ?_⟩
  cases hd : decodePairStr (((padded.getD r []).drop (2 * s)).take 2) with
  | none =>
    simp only [hd] at he
    exact Option.noConfusion he
  | some fret =>
    simp only [hd] at he
    split at he
    · rename_i hf
      exact ⟨fret, hf, he⟩
    · exact Option.noConfusion he

theorem clamp_le {x : Nat} : (if 24 < x then 24 else x) ≤ 24 := by
  split <;> omega

theorem mkNote_isSome {s : String} {om : Nat} (hom : openMidi s = some om)
    {f : Nat} (hf : f ≤ 24) : mkNote s f ≠ none := by
  obtain ⟨h40, h64⟩ := openMidi_bounds hom
  simp only [mkNote, hom]
  rw [if_pos]
  · exact fun hc => Option.noConfusion hc
  · constructor
    · simp only [A0_MIDI]; omega
    · simp only [C8_MIDI]; omega

theorem legacyProcessRow_snd_some {maxLen col r : Nat} {grid : List Str}
    {n : ParsedNote} (h : (legacyProcessRow maxLen col r grid).2 = some n) :
    ∃ f, f ≤ 24 ∧ mkNote (order.getD r "") f = some n := by
  simp only [legacyProcessRow] at h
  split at h
  · exact ⟨_, clamp_le, h⟩
  · exact Option.noConfusion h

theorem legacyRows_mem {maxLen col : Nat} :
    ∀ (rs : List Nat) (grid : List Str) (n : ParsedNote),
      n ∈ (legacyRows maxLen col rs grid).2 →
      ∃ r, r ∈ rs ∧ ∃ f, f ≤ 24 ∧ mkNote (order.getD r "") f = some n
  | [], grid, n => by
    intro h
    simp [legacyRows] at h
  | r :: rs, grid, n => by
    intro h
    simp only [legacyRows, List.mem_append] at h
    rcases h with h | h
    · rw [Option.mem_toList, Option.mem_def] at h
      obtain ⟨f, hf, hmk⟩ := legacyProcessRow_snd_some h
      exact ⟨r, List.mem_cons_self r rs, f, hf, hmk⟩
    · obtain ⟨r', hr', hf⟩ := legacyRows_mem rs _ n h
      exact ⟨r', List.mem_cons_of_mem r hr', hf⟩

theorem legacyCols_mem {maxLen : Nat} :
    ∀ (cols : List Nat) (grid : List Str) (e : TabEvent),
      e ∈ legacyCols maxLen cols grid →
      ∃ col g, e = ⟨col, (legacyRows maxLen col (List.range 6) g).2⟩
  | [], grid, e => by
    intro h
    simp [legacyCols] at h
  | c :: cs, grid, e => by
    intro h
    simp only [legacyCols, List.mem_cons] at h
    rcases h with h | h
    · exact ⟨c, grid, h⟩
    · exact legacyCols_mem cs _ e h

theorem parse_ok_cases {t : Str} {res : ParseResult}
    (h : parseAsciiTab t = .ok res) :
    (∃ padded L, res = ⟨(List.range L).map
        (fun s => ⟨s, fixedNotesAt padded s⟩), L⟩) ∨
    (∃ maxLen grid, res = ⟨legacyCols maxLen (List.range maxLen) grid, maxLen⟩) := by
  simp only [parseAsciiTab] at h
  split at h
  · exact Except.noConfusion h
  · split at h
    · left
      injection h with h
      exact ⟨_, _, h.symm⟩
    · right
      injection h with h
      exact ⟨_, _, h.symm⟩

/-- C5: every note stored in any event of any successful parse satisfies
`midi = openMidi(string) + fret`, `key = midi - 20` and `21 ≤ midi ≤ 108`;
out-of-range candidates are never stored. -/
theorem c5_note_invariant : ∀ (t : Str) (res : ParseResult),
    parseAsciiTab t = .ok res → ∀ e ∈ res.events, ∀ n ∈ e.notes,
      ∃ om, openMidi n.string = some om ∧ n.midi = om + n.fret ∧
        n.key = (n.midi : Int) - 20 ∧ A0_MIDI ≤ n.midi ∧ n.midi ≤ C8_MIDI := by
  intro t res h e he n hn
  have key : ∃ s f, mkNote s f = some n := by
    rcases parse_ok_cases h with ⟨padded, L, rfl⟩ | ⟨maxLen, grid, rfl⟩
    · obtain ⟨s, hs, rfl⟩ := List.mem_map.mp he
      obtain ⟨r, _, f, _, hmk⟩ := mem_fixedNotesAt hn
      exact ⟨_, _, hmk⟩
    · obtain ⟨col, g, rfl⟩ := legacyCols_mem _ _ _ he
      obtain ⟨r, _, f, _, hmk⟩ := legacyRows_mem _ _ _ hn
      exact ⟨_, _, hmk⟩
  obtain ⟨s, f, hmk⟩ := key
  obtain ⟨om, hom, hstr, hfret, hmidi, hkey, hlo, hhi⟩ := mkNote_eq_some hmk
  refine ⟨om, ?_, ?_, hkey, hlo, hhi⟩
  · rw [hstr]; exact hom
  · rw [hfret]; exact hmidi

theorem filterMap_map_sublist {α β γ : Type} (l : List α) (f : α → Option β)
    (g : β → γ) (k : α → γ) (hfg : ∀ a b, f a = some b → g b = k a) :
    List.Sublist ((l.filterMap f).map g) (l.map k) := by
  induction l with
  | nil => simp
  | cons a l ih =>
    cases hfa : f a with
    | none =>
      simp only [List.filterMap_cons, hfa, List.map_cons]
      exact ih.cons _
    | some b =>
      simp only [List.filterMap_cons, hfa, List.map_cons]
      rw [hfg a b hfa]
      exact ih.cons₂ _

theorem fixedNotesAt_string_sublist (padded : List Str) (s : Nat) :
    List.Sublist ((fixedNotesAt padded s).map (fun n => n.string)) order := by
  have hmap : (List.range 6).map (fun r => order.getD r "") = order := by decide
  rw [fixedNotesAt, ← hmap]
  refine filterMap_map_sublist _ _ _ _ ?_
  intro r n he
  cases hd : decodePairStr (((padded.getD r []).drop (2 * s)).take 2) with
  | none =>
    simp only [hd] at he
    exact Option.noConfusion he
  | some fret =>
    simp only [hd] at he
    split at he
    · obtain ⟨om, _, hstr, _⟩ := mkNote_eq_some he
      exact hstr
    · exact Option.noConfusion he

theorem legacyRows_string_sublist (maxLen col : Nat) :
    ∀ (rs : List Nat) (grid : List Str),
      List.Sublist (((legacyRows maxLen col rs grid).2).map (fun n => n.string))
        (rs.map (fun r => order.getD r ""))
  | [], grid => by simp [legacyRows]
  | r :: rs, grid => by
    simp only [legacyRows, List.map_cons]
    cases ho : (legacyProcessRow maxLen col r grid).2 with
    | none =>
      simp only [ho, Option.toList_none, List.nil_append]
      exact (legacyRows_string_sublist maxLen col rs _).cons _
    | some n =>
      simp only [ho, Option.toList_some, List.singleton_append, List.map_cons]
      obtain ⟨f, _, hmk⟩ := legacyProcessRow_snd_some ho
      obtain ⟨om, _, hstr, _⟩ := mkNote_eq_some hmk
      rw [hstr]
      exact (legacyRows_string_sublist maxLen col rs _).cons₂ _

theorem legacyCols_map_step (maxLen : Nat) :
    ∀ (cols : List Nat) (grid : List Str),
      (legacyCols maxLen cols grid).map TabEvent.step = cols
  | [], grid => by simp [legacyCols]
  | c :: cs, grid => by
    simp only [legacyCols, List.map_cons]
    rw [legacyCols_map_step maxLen cs]

/-- C6: every successful parse yields exactly one event per step index in
ascending order (`events.map step = range steps`, `events.length = steps`),
and within each event the note strings follow the fixed row order
`e, B, G, D, A, E`. -/
theorem c6_event_totality : ∀ (t : Str) (res : ParseResult),
    parseAsciiTab t = .ok res →
      res.events.length = res.steps ∧
      res.events.map TabEvent.step = List.range res.steps ∧
      ∀ e ∈ res.events, List.Sublist (e.notes.map (fun n => n.string)) order := by
  intro t res h
  rcases parse_ok_cases h with ⟨padded, L, rfl⟩ | ⟨maxLen, grid, rfl⟩
  · refine ⟨by simp, ?_, ?_⟩
    · rw [List.map_map]
      rw [show (TabEvent.step ∘ fun s => (⟨s, fixedNotesAt padded s⟩ : TabEvent))
          = id from rfl, List.map_id]
    · intro e he
      obtain ⟨s, _, rfl⟩ := List.mem_map.mp he
      exact fixedNotesAt_string_sublist padded s
  · refine ⟨?_, legacyCols_map_step _ _ _, ?_⟩
    · have hlen := congrArg List.length (legacyCols_map_step maxLen
        (List.range maxLen) grid)
      simpa using hlen
    · intro e he
      obtain ⟨col, g, rfl⟩ := legacyCols_mem _ _ _ he
      have hmap : (List.range 6).map (fun r => order.getD r "") = order := by
        decide
      have hsub := legacyRows_string_sublist maxLen col (List.range 6) g
      rwa [hmap] at hsub

/-- Input with a single open-string note on row `A`, used to witness the
invariant claims. -/
def invInput : Str := ("e|--|\nB|--|\nG|--|\nD|--|\nA|0-|\nE|--|").data

def invResult : ParseResult := ⟨[⟨0, [⟨"A", 0, 45, 25, "A2"⟩]⟩], 1⟩

theorem c5_note_invariant_witness :
    parseAsciiTab invInput = .ok invResult ∧
    ∀ e ∈ invResult.events, ∀ n ∈ e.notes,
      ∃ om, openMidi n.string = some om ∧ n.midi = om + n.fret ∧
        n.key = (n.midi : Int) - 20 ∧ A0_MIDI ≤ n.midi ∧ n.midi ≤ C8_MIDI :=
  ⟨by decide, c5_note_invariant invInput invResult (by decide)⟩

theorem c6_event_totality_witness :
    parseAsciiTab invInput = .ok invResult ∧
    (invResult.events.length = invResult.steps ∧
     invResult.events.map TabEvent.step = List.range invResult.steps ∧
     ∀ e ∈ invResult.events,
       List.Sublist (e.notes.map (fun n => n.string)) order) :=
  ⟨by decide, c6_event_totality invInput invResult (by decide)⟩

/-- C10: every open midi is between 40 and 64, so any fret at most 24 gives a
midi inside both [40,88] and the piano range, `mkNote` always stores a note
for such frets, and in the legacy path a row produces no note only when its
character is not a digit — the range-drop branch never fires. -/
theorem c10_range_guard_unreachable :
    (∀ s om, openMidi s = some om → ∀ f, f ≤ 24 →
      (40 ≤ om + f ∧ om + f ≤ 88 ∧ A0_MIDI ≤ om + f ∧ om + f ≤ C8_MIDI) ∧
      ∃ n, mkNote s f = some n) ∧
    (∀ maxLen col r grid, r < 6 →
      (legacyProcessRow maxLen col r grid).2 = none →
      ((grid.getD r []).getD col ' ').isDigit = false) := by
  constructor
  · intro s om hom f hf
    obtain ⟨h40, h64⟩ := openMidi_bounds hom
    have hb : 40 ≤ om + f ∧ om + f ≤ 88 ∧ A0_MIDI ≤ om + f ∧ om + f ≤ C8_MIDI := by
      refine ⟨by omega, by omega, ?_, ?_⟩
      · simp only [A0_MIDI]; omega
      · simp only [C8_MIDI]; omega
    have hmk : mkNote s f = some ⟨s, f, om + f,
        midiToKeyNumber ((om + f : Nat) : Int), midiToName (om + f)⟩ := by
      simp only [mkNote, hom]
      rw [if_pos ⟨hb.2.2.1, hb.2.2.2⟩]
    exact ⟨hb, ⟨_, hmk⟩⟩
  · intro maxLen col r grid hr hnone
    by_contra hdig
    rw [Bool.not_eq_false] at hdig
    simp only [legacyProcessRow] at hnone
    rw [if_pos hdig] at hnone
    obtain ⟨hs, _, _⟩ := openMidi_order_facts r hr
    obtain ⟨om, hom⟩ := Option.isSome_iff_exists.mp hs
    exact mkNote_isSome hom clamp_le hnone

theorem c10_range_guard_unreachable_witness :
    (openMidi "E" = some 40 ∧ 24 ≤ 24 ∧
      ((40 ≤ 40 + 24 ∧ 40 + 24 ≤ 88 ∧ A0_MIDI ≤ 40 + 24 ∧ 40 + 24 ≤ C8_MIDI) ∧
        ∃ n, mkNote "E" 24 = some n)) ∧
    (0 < 6 ∧ (legacyProcessRow 1 0 0 [['-']]).2 = none ∧
      (([(['-'] : Str)].getD 0 []).getD 0 ' ').isDigit = false) :=
  ⟨⟨by decide, by decide,
      c10_range_guard_unreachable.1 "E" 40 (by decide) 24 (by decide)⟩,
   ⟨by decide, by decide,
      c10_range_guard_unreachable.2 1 0 0 [['-']] (by decide) (by decide)⟩⟩

/-! ### Round-trip support (C1): splitting is inverse to joining -/

theorem splitOnChar_of_not_mem {sep : Char} : ∀ {l : Str}, sep ∉ l →
    splitOnChar sep l = [l]
  | [], _ => rfl
  | c :: rest, h => by
    have hc : ¬(c = sep) := fun hcc => h (hcc ▸ List.mem_cons_self c rest)
    have hr : sep ∉ rest := fun hm => h (List.mem_cons_of_mem c hm)
    simp only [splitOnChar, if_neg hc, splitOnChar_of_not_mem hr]

theorem splitOnChar_append {sep : Char} : ∀ {l₁ : Str} (l₂ : Str), sep ∉ l₁ →
    splitOnChar sep (l₁ ++ sep :: l₂) = l₁ :: splitOnChar sep l₂
  | [], l₂, _ => by simp [splitOnChar]
  | c :: rest, l₂, h => by
    have hc : ¬(c = sep) := fun hcc => h (hcc ▸ List.mem_cons_self c rest)
    have hr : sep ∉ rest := fun hm => h (List.mem_cons_of_mem c hm)
    rw [List.cons_append]
    simp only [splitOnChar, if_neg hc]
    rw [splitOnChar_append l₂ hr]

theorem splitOnChar_joinNL : ∀ (ls : List Str), ls ≠ [] →
    (∀ l ∈ ls, ('\n' : Char) ∉ l) → splitOnChar '\n' (joinNL ls) = ls
  | [], h, _ => absurd rfl h
  | [l], _, hl => splitOnChar_of_not_mem (hl l (List.mem_singleton_self l))
  | l :: l₂ :: rest, _, hl => by
    show splitOnChar '\n' (l ++ '\n' :: joinNL (l₂ :: rest)) = _
    rw [splitOnChar_append _ (hl l (List.mem_cons_self _ _))]
    rw [splitOnChar_joinNL (l₂ :: rest) (by simp)
      (fun x hx => hl x (List.mem_cons_of_mem l hx))]

theorem mem_joinNL : ∀ {ls : List Str} {c : Char}, c ∈ joinNL ls →
    c = '\n' ∨ ∃ l ∈ ls, c ∈ l
  | [], c, h => by simp [joinNL] at h
  | [l], c, h => Or.inr ⟨l, List.mem_singleton_self l, h⟩
  | l :: l₂ :: rest, c, h => by
    have h' : c ∈ l ++ '\n' :: joinNL (l₂ :: rest) := h
    rcases List.mem_append.mp h' with h'' | h''
    · exact Or.inr ⟨l, List.mem_cons_self _ _, h''⟩
    · rcases List.mem_cons.mp h'' with h3 | h3
      · exact Or.inl h3
      · rcases mem_joinNL h3 with h4 | ⟨l', hl', hcl⟩
        · exact Or.inl h4
        · exact Or.inr ⟨l', List.mem_cons_of_mem l hl', hcl⟩

theorem dropWhile_append_all {p : Char → Bool} : ∀ {l₁ : Str} (l₂ : Str),
    (∀ c ∈ l₁, p c = true) → (l₁ ++ l₂).dropWhile p = l₂.dropWhile p
  | [], l₂, _ => rfl
  | c :: rest, l₂, h => by
    rw [List.cons_append, List.dropWhile_cons,
      if_pos (h c (List.mem_cons_self _ _)),
      dropWhile_append_all l₂ (fun x hx => h x (List.mem_cons_of_mem c hx))]

theorem bodyAfterPipe_append {name body : Str} (h : ('|' : Char) ∉ name) :
    bodyAfterPipe (name ++ '|' :: body) = body := by
  have hall : ∀ c ∈ name, (!(c = '|') : Bool) = true := by
    intro c hc
    have hne : c ≠ '|' := fun hcc => h (hcc ▸ hc)
    simp [hne]
  have hd : (name ++ '|' :: body).dropWhile (fun c => !(c = '|')) =
      '|' :: body := by
    rw [dropWhile_append_all _ hall, List.dropWhile_cons]
    simp
  simp only [bodyAfterPipe, hd]

/-! ### Round-trip support (C1): cells and bodies of generated lines -/

theorem encPair_facts : ∀ f, f < 25 →
    (encPair f).length = 2 ∧ decodePairStr (encPair f) = some f ∧
    pairsOk (encPair f) = true ∧
    ∀ c ∈ encPair f, tabBodyChar c = true ∧ c ≠ '\n' ∧ c ≠ '\r' ∧ c ≠ '|' ∧
      c.isWhitespace = false := by
  decide

theorem cellChars_facts {notes : List Placement} {T : Nat}
    (hv : ∀ p ∈ notes, p.string < 6 ∧ p.fret ≤ 24 ∧ p.step < T) (i st : Nat) :
    (cellChars notes i st).length = 2 ∧ pairsOk (cellChars notes i st) = true ∧
    ∀ c ∈ cellChars notes i st, tabBodyChar c = true ∧ c ≠ '\n' ∧ c ≠ '\r' ∧
      c ≠ '|' ∧ c.isWhitespace = false := by
  cases hf : notes.find? (fun n => n.string == i && n.step == st) with
  | none =>
    simp only [cellChars, hf]
    exact ⟨rfl, by decide, by decide⟩
  | some p =>
    simp only [cellChars, hf]
    have hp : p ∈ notes := List.mem_of_find?_eq_some hf
    have h24 : p.fret < 25 := by
      have := (hv p hp).2.1
      omega
    obtain ⟨h1, _, h3, h4⟩ := encPair_facts p.fret h24
    exact ⟨h1, h3, h4⟩

theorem cellChars_decode {notes : List Placement} {T : Nat}
    (hv : ∀ p ∈ notes, p.string < 6 ∧ p.fret ≤ 24 ∧ p.step < T) (i st : Nat) :
    decodePairStr (cellChars notes i st) =
      (notes.find? (fun n => n.string == i && n.step == st)).map
        (fun p => p.fret) := by
  cases hf : notes.find? (fun n => n.string == i && n.step == st) with
  | none =>
    simp only [cellChars, hf, Option.map_none']
    decide
  | some p =>
    simp only [cellChars, hf, Option.map_some']
    have hp : p ∈ notes := List.mem_of_find?_eq_some hf
    have h24 : p.fret < 25 := by
      have := (hv p hp).2.1
      omega
    exact (encPair_facts p.fret h24).2.1

theorem flatten_len_two {f : Nat → Str} : ∀ {st : List Nat},
    (∀ x ∈ st, (f x).length = 2) →
    ((st.map f).flatten).length = 2 * st.length
  | [], _ => by simp
  | a :: l, h => by
    simp only [List.map_cons, List.flatten_cons, List.length_append,
      h a (List.mem_cons_self _ _), List.length_cons,
      flatten_len_two (fun x hx => h x (List.mem_cons_of_mem a hx))]
    ring

theorem pairsOk_flatten {f : Nat → Str} : ∀ {st : List Nat},
    (∀ x ∈ st, (f x).length = 2) → (∀ x ∈ st, pairsOk (f x) = true) →
    pairsOk ((st.map f).flatten) = true
  | [], _, _ => rfl
  | a :: l, hlen, hok => by
    obtain ⟨x, y, hxy⟩ := List.length_eq_two.mp (hlen a (List.mem_cons_self _ _))
    have hcell := hok a (List.mem_cons_self _ _)
    rw [hxy] at hcell
    have hpa : pairOk x y = true := by
      rw [pairsOk, Bool.and_eq_true] at hcell
      exact hcell.1
    simp only [List.map_cons, List.flatten_cons, hxy, List.cons_append,
      List.nil_append]
    rw [pairsOk, Bool.and_eq_true]
    exact ⟨hpa, pairsOk_flatten
      (fun z hz => hlen z (List.mem_cons_of_mem a hz))
      (fun z hz => hok z (List.mem_cons_of_mem a hz))⟩

theorem flatten_pair_at {f : Nat → Str} : ∀ (st : List Nat) (k : Nat),
    k < st.length → (∀ x ∈ st, (f x).length = 2) →
    (((st.map f).flatten).drop (2 * k)).take 2 = f (st.getD k 0)
  | [], k, hk, _ => by simp at hk
  | a :: l, 0, _, hlen => by
    obtain ⟨x, y, hxy⟩ := List.length_eq_two.mp (hlen a (List.mem_cons_self _ _))
    simp only [List.map_cons, List.flatten_cons, hxy, Nat.mul_zero,
      List.drop_zero, List.getD_cons_zero, List.cons_append, List.nil_append]
    rfl
  | a :: l, k + 1, hk, hlen => by
    obtain ⟨x, y, hxy⟩ := List.length_eq_two.mp (hlen a (List.mem_cons_self _ _))
    have h2 : 2 * (k + 1) = 2 * k + 1 + 1 := by ring
    simp only [List.map_cons, List.flatten_cons, hxy, List.getD_cons_succ,
      List.cons_append, List.nil_append, h2, List.drop_succ_cons]
    exact flatten_pair_at l k (by simpa using hk)
      (fun z hz => hlen z (List.mem_cons_of_mem a hz))

theorem bodyFor_length {notes : List Placement} {T : Nat}
    (hv : ∀ p ∈ notes, p.string < 6 ∧ p.fret ≤ 24 ∧ p.step < T) (i : Nat) :
    (bodyFor notes T i).length = 2 * T := by
  rw [bodyFor, flatten_len_two (fun x _ => (cellChars_facts hv i x).1)]
  simp

theorem bodyFor_pairsOk {notes : List Placement} {T : Nat}
    (hv : ∀ p ∈ notes, p.string < 6 ∧ p.fret ≤ 24 ∧ p.step < T) (i : Nat) :
    pairsOk (bodyFor notes T i) = true := by
  rw [bodyFor]
  exact pairsOk_flatten (fun x _ => (cellChars_facts hv i x).1)
    (fun x _ => (cellChars_facts hv i x).2.1)

theorem bodyFor_chars {notes : List Placement} {T : Nat}
    (hv : ∀ p ∈ notes, p.string < 6 ∧ p.fret ≤ 24 ∧ p.step < T) (i : Nat) :
    ∀ c ∈ bodyFor notes T i, tabBodyChar c = true ∧ c ≠ '\n' ∧ c ≠ '\r' ∧
      c ≠ '|' ∧ c.isWhitespace = false := by
  intro c hc
  rw [bodyFor] at hc
  obtain ⟨l, hl, hcl⟩ := List.mem_flatten.mp hc
  obtain ⟨st, _, rfl⟩ := List.mem_map.mp hl
  exact (cellChars_facts hv i st).2.2 c hcl

theorem range_getD {n k : Nat} (hk : k < n) : (List.range n).getD k 0 = k := by
  rw [List.getD_eq_getElem _ _ (by simpa using hk)]
  simp

theorem bodyFor_pair_at {notes : List Placement} {T : Nat}
    (hv : ∀ p ∈ notes, p.string < 6 ∧ p.fret ≤ 24 ∧ p.step < T) (i s : Nat)
    (hs : s < T) :
    ((bodyFor notes T i).drop (2 * s)).take 2 = cellChars notes i s := by
  rw [bodyFor, flatten_pair_at (List.range T) s (by simpa using hs)
    (fun x _ => (cellChars_facts hv i x).1), range_getD hs]

/-! ### Round-trip support (C1): the generated lines through the pipeline -/

theorem stringName_facts : ∀ i, i < 6 →
    (STRING_NAMES.getD i "").data.length = 1 ∧
    ∀ c ∈ (STRING_NAMES.getD i "").data,
      c ≠ '\n' ∧ c ≠ '\r' ∧ c ≠ '|' ∧ c.isWhitespace = false := by
  decide

theorem lineFor_eq (notes : List Placement) (T i : Nat) :
    lineFor notes T i =
      (STRING_NAMES.getD i "").data ++ '|' :: (bodyFor notes T i ++ ['|']) := by
  rw [lineFor]
  simp [List.append_assoc]

theorem bodyAfterPipe_lineFor {notes : List Placement} {T i : Nat}
    (hi : i < 6) :
    bodyAfterPipe (lineFor notes T i) = bodyFor notes T i ++ ['|'] := by
  rw [lineFor_eq]
  refine bodyAfterPipe_append (fun hm => ?_)
  exact ((stringName_facts i hi).2 '|' hm).2.2.1 rfl

theorem lineFor_mem {notes : List Placement} {T i : Nat} {c : Char}
    (hm : c ∈ lineFor notes T i) :
    c ∈ (STRING_NAMES.getD i "").data ∨ c = '|' ∨ c ∈ bodyFor notes T i := by
  rw [lineFor_eq] at hm
  rcases List.mem_append.mp hm with h | h
  · exact Or.inl h
  · rcases List.mem_cons.mp h with h | h
    · exact Or.inr (Or.inl h)
    · rcases List.mem_append.mp h with h | h
      · exact Or.inr (Or.inr h)
      · exact Or.inr (Or.inl (List.mem_singleton.mp h))

theorem lineFor_no_nl_cr {notes : List Placement} {T : Nat}
    (hv : ∀ p ∈ notes, p.string < 6 ∧ p.fret ≤ 24 ∧ p.step < T)
    {i : Nat} (hi : i < 6) {c : Char} (hm : c ∈ lineFor notes T i) :
    c ≠ '\n' ∧ c ≠ '\r' := by
  rcases lineFor_mem hm with h | h | h
  · have hc := (stringName_facts i hi).2 c h
    exact ⟨hc.1, hc.2.1⟩
  · subst h
    exact ⟨by decide, by decide⟩
  · have hc := bodyFor_chars hv i c h
    exact ⟨hc.2.1, hc.2.2.1⟩

theorem mem_gen_lines {notes : List Placement} {T : Nat} {l : Str}
    (hl : l ∈ (List.range 6).map (lineFor notes T)) :
    ∃ i, i < 6 ∧ l = lineFor notes T i := by
  obtain ⟨i, hi, rfl⟩ := List.mem_map.mp hl
  exact ⟨i, by simpa using hi, rfl⟩

theorem linesOf_gen {notes : List Placement} {T : Nat}
    (hv : ∀ p ∈ notes, p.string < 6 ∧ p.fret ≤ 24 ∧ p.step < T) :
    linesOf (generateTab notes T) = (List.range 6).map (lineFor notes T) := by
  rw [generateTab, linesOf]
  have hfil : (joinNL ((List.range 6).map (lineFor notes T))).filter
      (fun c => !(c = '\r')) = joinNL ((List.range 6).map (lineFor notes T)) := by
    rw [List.filter_eq_self]
    intro c hc
    rcases mem_joinNL hc with rfl | ⟨l, hl, hcl⟩
    · decide
    · obtain ⟨i, hi, rfl⟩ := mem_gen_lines hl
      have hne := (lineFor_no_nl_cr hv hi hcl).2
      simp [hne]
  rw [hfil]
  rw [splitOnChar_joinNL _ (by simp) ?hnl]
  case hnl =>
    intro l hl
    obtain ⟨i, hi, rfl⟩ := mem_gen_lines hl
    intro hm
    exact (lineFor_no_nl_cr hv hi hm).1 rfl
  rw [List.filter_eq_self]
  intro l hl
  obtain ⟨i, hi, rfl⟩ := mem_gen_lines hl
  rw [List.any_eq_true]
  refine ⟨'|', ?_, by decide⟩
  rw [lineFor_eq]
  exact List.mem_append_right _ (List.mem_cons_self _ _)

theorem candidatesOf_gen {notes : List Placement} {T : Nat}
    (hv : ∀ p ∈ notes, p.string < 6 ∧ p.fret ≤ 24 ∧ p.step < T) :
    candidatesOf ((List.range 6).map (lineFor notes T)) =
      (List.range 6).map (lineFor notes T) := by
  rw [candidatesOf, List.filter_eq_self]
  intro l hl
  obtain ⟨i, hi, rfl⟩ := mem_gen_lines hl
  rw [isCandidateLine, bodyAfterPipe_lineFor hi, Bool.and_eq_true]
  constructor
  · cases hb : bodyFor notes T i with
    | nil => decide
    | cons a tl => rfl
  · rw [List.all_eq_true]
    intro c hc
    rcases List.mem_append.mp hc with h | h
    · exact (bodyFor_chars hv i c h).1
    · rw [List.mem_singleton.mp h]
      decide

theorem startsE_lineFor (notes : List Placement) (T : Nat) :
    startsWithE (lineFor notes T 0) = true := by
  rw [lineFor_eq, show (STRING_NAMES.getD 0 "").data = ['e'] from rfl,
    List.singleton_append]
  simp [startsWithE, List.dropWhile_cons]

theorem startsB_lineFor (notes : List Placement) (T : Nat) :
    startsWithB (lineFor notes T 1) = true := by
  rw [lineFor_eq, show (STRING_NAMES.getD 1 "").data = ['B'] from rfl,
    List.singleton_append]
  simp [startsWithB, List.dropWhile_cons]

theorem findWindow_gen (notes : List Placement) (T : Nat) :
    findWindow ((List.range 6).map (lineFor notes T)) =
      some ((List.range 6).map (lineFor notes T)) := by
  rw [show List.range 6 = [0, 1, 2, 3, 4, 5] from rfl]
  simp only [List.map_cons, List.map_nil]
  rw [findWindow, if_pos (by simp), if_pos ?_]
  · rfl
  · rw [Bool.and_eq_true]
    exact ⟨startsE_lineFor notes T, startsB_lineFor notes T⟩

theorem selectTabLines_gen {notes : List Placement} {T : Nat}
    (hv : ∀ p ∈ notes, p.string < 6 ∧ p.fret ≤ 24 ∧ p.step < T) :
    selectTabLines ((List.range 6).map (lineFor notes T))
      (candidatesOf ((List.range 6).map (lineFor notes T))) =
      (List.range 6).map (lineFor notes T) := by
  rw [candidatesOf_gen hv, selectTabLines, if_pos (by simp), findWindow_gen]
  rfl

theorem isSectioned_gen {notes : List Placement} {T : Nat}
    (_hv : ∀ p ∈ notes, p.string < 6 ∧ p.fret ≤ 24 ∧ p.step < T) :
    isSectioned ((List.range 6).map (lineFor notes T)) = true := by
  rw [isSectioned,
    show ((List.range 6).map (lineFor notes T)).headD [] = lineFor notes T 0
      from by rw [show List.range 6 = [0, 1, 2, 3, 4, 5] from rfl]; rfl,
    bodyAfterPipe_lineFor (by omega)]
  have hm : ('|' : Char) ∈ bodyFor notes T 0 ++ ['|'] :=
    List.mem_append_right _ (List.mem_singleton_self _)
  exact List.elem_iff.mpr hm

theorem dropTrailingBlanks_pair (body : Str)
    (h : body ≠ [] → body.all Char.isWhitespace = false) :
    (dropTrailingBlanks [body, []]).flatten = body := by
  rw [dropTrailingBlanks, show ([body, []] : List Str).reverse = [[], body]
    from by simp, List.dropWhile_cons, if_pos (by decide)]
  by_cases hb : body = []
  · subst hb
    rfl
  · rw [List.dropWhile_cons, if_neg (by simp [h hb])]
    simp

theorem sectionedBody_lineFor {notes : List Placement} {T : Nat}
    (hv : ∀ p ∈ notes, p.string < 6 ∧ p.fret ≤ 24 ∧ p.step < T)
    {i : Nat} (hi : i < 6) :
    sectionedBody (lineFor notes T i) = bodyFor notes T i := by
  have hname : ('|' : Char) ∉ (STRING_NAMES.getD i "").data := fun hm =>
    ((stringName_facts i hi).2 '|' hm).2.2.1 rfl
  have hbody : ('|' : Char) ∉ bodyFor notes T i := fun hm =>
    (bodyFor_chars hv i '|' hm).2.2.2.1 rfl
  rw [sectionedBody, lineFor_eq,
    show bodyFor notes T i ++ ['|'] = bodyFor notes T i ++ '|' :: [] from rfl,
    splitOnChar_append _ hname, splitOnChar_append _ hbody,
    show splitOnChar '|' [] = [[]] from rfl, List.drop_one, List.tail_cons]
  refine dropTrailingBlanks_pair _ (fun hb => ?_)
  obtain ⟨c, hc⟩ := List.exists_mem_of_ne_nil _ hb
  rw [List.all_eq_false]
  exact ⟨c, hc, by simp [(bodyFor_chars hv i c hc).2.2.2.2]⟩

theorem flattenedOf_gen {notes : List Placement} {T : Nat}
    (hv : ∀ p ∈ notes, p.string < 6 ∧ p.fret ≤ 24 ∧ p.step < T) :
    flattenedOf ((List.range 6).map (lineFor notes T)) =
      (List.range 6).map (bodyFor notes T) := by
  rw [flattenedOf, if_pos (isSectioned_gen hv), List.map_map]
  refine List.map_congr_left (fun i hi => ?_)
  exact sectionedBody_lineFor hv (by simpa using hi)

theorem maxLenOf_gen {notes : List Placement} {T : Nat}
    (hv : ∀ p ∈ notes, p.string < 6 ∧ p.fret ≤ 24 ∧ p.step < T) :
    maxLenOf ((List.range 6).map (bodyFor notes T)) = 2 * T := by
  rw [maxLenOf, List.map_map]
  rw [show List.range 6 = [0, 1, 2, 3, 4, 5] from rfl]
  simp only [List.map_cons, List.map_nil, Function.comp_apply]
  rw [bodyFor_length hv 0, bodyFor_length hv 1, bodyFor_length hv 2,
    bodyFor_length hv 3, bodyFor_length hv 4, bodyFor_length hv 5]
  simp only [List.foldl_cons, List.foldl_nil, Nat.zero_max, Nat.max_self]

theorem paddedOf_gen {notes : List Placement} {T : Nat}
    (hv : ∀ p ∈ notes, p.string < 6 ∧ p.fret ≤ 24 ∧ p.step < T) :
    paddedOf ((List.range 6).map (lineFor notes T)) =
      (List.range 6).map (bodyFor notes T) := by
  rw [paddedOf, flattenedOf_gen hv, maxLenOf_gen hv, List.map_map]
  refine List.map_congr_left (fun i _ => ?_)
  rw [Function.comp_apply, padDash, bodyFor_length hv i, Nat.sub_self,
    List.replicate_zero, List.append_nil]

theorem isFixedWidth_gen {notes : List Placement} {T : Nat}
    (hv : ∀ p ∈ notes, p.string < 6 ∧ p.fret ≤ 24 ∧ p.step < T) :
    isFixedWidthLines ((List.range 6).map (bodyFor notes T)) = true := by
  rw [isFixedWidthLines, List.all_eq_true]
  intro l hl
  obtain ⟨i, _, rfl⟩ := List.mem_map.mp hl
  rw [Bool.and_eq_true]
  constructor
  · rw [bodyFor_length hv i]
    simp [Nat.mul_mod_right]
  · exact bodyFor_pairsOk hv i

/-! ### Round-trip support (C1): decoding the generated bodies -/

theorem filterMap_congr' {α β : Type} {l : List α} {f g : α → Option β}
    (h : ∀ a ∈ l, f a = g a) : l.filterMap f = l.filterMap g := by
  induction l with
  | nil => rfl
  | cons a t ih =>
    rw [List.filterMap_cons, List.filterMap_cons, h a (List.mem_cons_self _ _),
      ih (fun x hx => h x (List.mem_cons_of_mem a hx))]

theorem mkNote_succeeds {r f : Nat} (hr : r < 6) (hf : f ≤ 24) :
    ∃ n, mkNote (order.getD r "") f = some n ∧ n.string = order.getD r "" ∧
      n.fret = f := by
  obtain ⟨hs, h40, h64⟩ := openMidi_order_facts r hr
  obtain ⟨om, hom⟩ := Option.isSome_iff_exists.mp hs
  rw [hom, Option.getD_some] at h40 h64
  have hmk : mkNote (order.getD r "") f = some ⟨order.getD r "", f, om + f,
      midiToKeyNumber ((om + f : Nat) : Int), midiToName (om + f)⟩ := by
    simp only [mkNote, hom]
    rw [if_pos ⟨by simp only [A0_MIDI]; omega, by simp only [C8_MIDI]; omega⟩]
  exact ⟨_, hmk, rfl, rfl⟩

theorem order_getD_inj : ∀ r, r < 6 → ∀ r', r' < 6 →
    order.getD r' "" = STRING_NAMES.getD r "" → r' = r := by
  decide

theorem fixedNotesAt_gen {notes : List Placement} {T : Nat}
    (hv : ∀ p ∈ notes, p.string < 6 ∧ p.fret ≤ 24 ∧ p.step < T)
    {s : Nat} (hs : s < T) :
    fixedNotesAt ((List.range 6).map (bodyFor notes T)) s =
      (List.range 6).filterMap (fun r =>
        (notes.find? (fun n => n.string == r && n.step == s)).bind
          (fun p => mkNote (order.getD r "") p.fret)) := by
  rw [fixedNotesAt]
  refine filterMap_congr' (fun r hr => ?_)
  have hr6 : r < 6 := by simpa using hr
  have hgetD : ((List.range 6).map (bodyFor notes T)).getD r [] =
      bodyFor notes T r := by
    rw [List.getD_eq_getElem _ _ (by simpa using hr6)]
    simp
  rw [hgetD, bodyFor_pair_at hv r s hs, cellChars_decode hv r s]
  cases hf : notes.find? (fun n => n.string == r && n.step == s) with
  | none => rfl
  | some p =>
    have h24 : p.fret ≤ 24 := (hv p (List.mem_of_find?_eq_some hf)).2.1
    show (if p.fret ≤ 24 then mkNote (order.getD r "") p.fret else none) =
      mkNote (order.getD r "") p.fret
    rw [if_pos h24]

theorem fixedNotes_any_iff {notes : List Placement} {T : Nat}
    (hv : ∀ p ∈ notes, p.string < 6 ∧ p.fret ≤ 24 ∧ p.step < T)
    (hu : ∀ p ∈ notes, ∀ q ∈ notes, p.string = q.string → p.step = q.step →
      p.fret = q.fret)
    {s : Nat} (hs : s < T) {r : Nat} (hr : r < 6) (f : Nat) :
    ((fixedNotesAt ((List.range 6).map (bodyFor notes T)) s).any
      (fun n => n.string == STRING_NAMES.getD r "" && n.fret == f)) = true ↔
      ∃ p ∈ notes, p.string = r ∧ p.step = s ∧ p.fret = f := by
  rw [fixedNotesAt_gen hv hs, List.any_eq_true]
  constructor
  · rintro ⟨n, hn, hpred⟩
    obtain ⟨r', hr', he⟩ := List.mem_filterMap.mp hn
    have hr'6 : r' < 6 := by simpa using hr'
    cases hf' : notes.find? (fun q => q.string == r' && q.step == s) with
    | none =>
      rw [hf'] at he
      exact absurd he (by simp)
    | some p =>
      rw [hf'] at he
      have hmk : mkNote (order.getD r' "") p.fret = some n := he
      obtain ⟨om, _, hstr, hfret, _⟩ := mkNote_eq_some hmk
      rw [Bool.and_eq_true, beq_iff_eq, beq_iff_eq] at hpred
      have hrr : r' = r := order_getD_inj r hr r' hr'6 (by rw [← hstr, hpred.1])
      have hpp := List.find?_some hf'
      rw [Bool.and_eq_true, beq_iff_eq, beq_iff_eq] at hpp
      refine ⟨p, List.mem_of_find?_eq_some hf', ?_, hpp.2, ?_⟩
      · rw [hpp.1, hrr]
      · rw [← hfret]
        exact hpred.2
  · rintro ⟨p, hp, hps, hpt, hpf⟩
    have hsome : (notes.find? (fun q => q.string == r && q.step == s)).isSome := by
      rw [List.find?_isSome]
      refine ⟨p, hp, ?_⟩
      rw [Bool.and_eq_true, beq_iff_eq, beq_iff_eq]
      exact ⟨hps, hpt⟩
    obtain ⟨q, hq⟩ := Option.isSome_iff_exists.mp hsome
    have hqp := List.find?_some hq
    rw [Bool.and_eq_true, beq_iff_eq, beq_iff_eq] at hqp
    have hqmem := List.mem_of_find?_eq_some hq
    have hqf : q.fret = f := by
      rw [← hpf]
      exact (hu p hp q hqmem (by rw [hps, hqp.1]) (by rw [hpt, hqp.2])).symm
    obtain ⟨n, hmk, hstr, hfret⟩ := mkNote_succeeds hr ((hv q hqmem).2.1)
    refine ⟨n, ?_, ?_⟩
    · rw [List.mem_filterMap]
      refine ⟨r, by simpa using hr, ?_⟩
      rw [hq]
      exact hmk
    · rw [Bool.and_eq_true, beq_iff_eq, beq_iff_eq]
      refine ⟨?_, by rw [hfret, hqf]⟩
      rw [hstr]
      rfl

theorem fixedNotes_empty {notes : List Placement} {T : Nat}
    (hv : ∀ p ∈ notes, p.string < 6 ∧ p.fret ≤ 24 ∧ p.step < T)
    {s : Nat} (hs : s < T) (hnone : ∀ p ∈ notes, p.step ≠ s) :
    fixedNotesAt ((List.range 6).map (bodyFor notes T)) s = [] := by
  rw [fixedNotesAt_gen hv hs, List.filterMap_eq_nil_iff]
  intro r hr
  have hf : notes.find? (fun q => q.string == r && q.step == s) = none := by
    rw [List.find?_eq_none]
    intro q hq hpred
    rw [Bool.and_eq_true, beq_iff_eq, beq_iff_eq] at hpred
    exact hnone q hq hpred.2
  rw [hf]
  rfl

/-- C1: for every placement set with at most one placement per (string, step),
frets in [0,24] and steps in [0,totalSteps), parsing the text produced by the
grid encoder yields events with exactly the same (string, step, fret) triples,
steps without a placement appearing as zero-note events. -/
theorem c1_round_trip (notes : List Placement) (T : Nat)
    (hv : ∀ p ∈ notes, p.string < 6 ∧ p.fret ≤ 24 ∧ p.step < T)
    (hu : ∀ p ∈ notes, ∀ q ∈ notes, p.string = q.string → p.step = q.step →
      p.fret = q.fret) :
    ∃ events : List TabEvent,
      parseAsciiTab (generateTab notes T) = .ok ⟨events, T⟩ ∧
      events.length = T ∧
      ∀ s, s < T →
        (events.getD s ⟨0, []⟩).step = s ∧
        (∀ r, r < 6 → ∀ f : Nat,
          ((events.getD s ⟨0, []⟩).notes.any
            (fun n => n.string == STRING_NAMES.getD r "" && n.fret == f)) = true
            ↔ ∃ p ∈ notes, p.string = r ∧ p.step = s ∧ p.fret = f) ∧
        ((∀ p ∈ notes, p.step ≠ s) → (events.getD s ⟨0, []⟩).notes = []) := by
  refine ⟨(List.range T).map (fun s =>
    ⟨s, fixedNotesAt ((List.range 6).map (bodyFor notes T)) s⟩), ?_, by simp, ?_⟩
  · simp only [parseAsciiTab]
    rw [linesOf_gen hv, selectTabLines_gen hv, if_neg (by simp),
      paddedOf_gen hv, flattenedOf_gen hv, maxLenOf_gen hv,
      if_pos (isFixedWidth_gen hv), show (2 * T) / 2 = T from by omega]
  · intro s hsT
    have hget : ((List.range T).map (fun s =>
        (⟨s, fixedNotesAt ((List.range 6).map (bodyFor notes T)) s⟩ :
          TabEvent))).getD s ⟨0, []⟩ =
        ⟨s, fixedNotesAt ((List.range 6).map (bodyFor notes T)) s⟩ := by
      rw [List.getD_eq_getElem _ _ (by simpa using hsT)]
      simp
    rw [hget]
    exact ⟨rfl, fun r hr f => fixedNotes_any_iff hv hu hsT hr f,
      fun hnone => fixedNotes_empty hv hsT hnone⟩

/-- Placements used to witness the round-trip: fret 3 on row `A` at step 0 and
fret 12 on row `e` at step 1, over three total steps. -/
def c1notes : List Placement := [⟨4, 3, 0⟩, ⟨0, 12, 1⟩]

theorem c1_round_trip_witness :
    ∃ events : List TabEvent,
      parseAsciiTab (generateTab c1notes 3) = .ok ⟨events, 3⟩ ∧
      events.length = 3 ∧
      ∀ s, s < 3 →
        (events.getD s ⟨0, []⟩).step = s ∧
        (∀ r, r < 6 → ∀ f : Nat,
          ((events.getD s ⟨0, []⟩).notes.any
            (fun n => n.string == STRING_NAMES.getD r "" && n.fret == f)) = true
            ↔ ∃ p ∈ c1notes, p.string = r ∧ p.step = s ∧ p.fret = f) ∧
        ((∀ p ∈ c1notes, p.step ≠ s) → (events.getD s ⟨0, []⟩).notes = []) :=
  c1_round_trip c1notes 3 (by decide) (by decide)
